import Mathlib

/-!
# Verification of the socratic-reader core algorithms

Shallow embedding of the text-anchoring, semantic-chunking and
LLM-response-validation code of the repository.  Documents are modelled as
the ordered list of their visible text nodes' contents (`List (List Char)`),
exactly the substrate `getTextNodesInRange` produces; all offset arithmetic
is over the concatenation of those nodes, as in the source.  JavaScript
numbers are modelled as `ℚ` (scores, offsets in LLM payloads) or `Int`/`Nat`
(character offsets); JavaScript string primitives (`slice`, `indexOf`,
`split`, `trim`, ...) are given faithful counterparts on `List Char` for the
ASCII texts the program manipulates.
-/

namespace SocraticReader

/-! ## JavaScript string primitives -/

/-- `s.slice(a, b)` for `0 ≤ a, b` : the characters with index in `[a, b)`,
both bounds clamped to the string length, empty when `b ≤ a`. -/
def jsSlice (s : List Char) (a b : Nat) : List Char :=
  (s.take b).drop a

/-- `s[i]` as JavaScript character access with a possibly negative index:
`undefined` (here `none`) outside the bounds. -/
def charAt? (s : List Char) (i : Int) : Option Char :=
  if i < 0 then none else s.get? i.toNat

/-- Characters matched by the JavaScript `\s` class (for the ASCII range
the program's texts use). -/
def isJsSpace (c : Char) : Bool :=
  c = ' ' ∨ c = '\t' ∨ c = '\n' ∨ c = '\x0d' ∨ c = '\x0c' ∨ c = '\x0b'

/-- JavaScript `String.prototype.trim`. -/
def jsTrim (s : List Char) : List Char :=
  ((s.dropWhile isJsSpace).reverse.dropWhile isJsSpace).reverse

/-- Whitespace-run counter: `inRun` records whether the previous character
was whitespace, so each maximal run is counted once. -/
def wsRunsGo (inRun : Bool) : List Char → Nat
  | [] => 0
  | c :: rest =>
    if isJsSpace c then (if inRun then 0 else 1) + wsRunsGo true rest
    else wsRunsGo false rest

/-- The number of maximal whitespace runs in `s`; `s.split(/\s+/).length`
equals this plus one (each maximal run is one separator match). -/
def wsRuns (s : List Char) : Nat :=
  wsRunsGo false s

/-- `s.split(/\s+/).length`, the word-count measure the chunker uses. -/
def splitWsLen (s : List Char) : Nat :=
  wsRuns s + 1

end SocraticReader

namespace SocraticReader.Anchoring

/-! ## `src/shared/anchoring.ts` -/

/-- `TextAnchor` (anchoring.ts): serializable anchor descriptor.  The
optional `hints` field is not modelled: `anchor` consults it only for the
optional Text-Fragments stage, which is skipped exactly when
`hints?.textFragment` is undefined. -/
structure TextAnchor where
  exact : List Char
  /-- the source's `prefix` field (a reserved word in Lean) -/
  pfx : List Char
  /-- the source's `suffix` field -/
  sfx : List Char
  start : Int
  stop : Int
  deriving DecidableEq, Repr

/-- Resolution method tag of an `AnchorResult`. -/
inductive Method where
  | exact | fuzzy | position | fragment
  deriving DecidableEq, Repr

/-- A DOM `Range` over the document's visible text nodes: index of the
start/end text node in document order plus the character offset inside it. -/
structure DocRange where
  startIdx : Nat
  startOff : Nat
  endIdx : Nat
  endOff : Nat
  deriving DecidableEq, Repr

/-- `AnchorResult` (anchoring.ts). -/
structure AnchorResult where
  range : DocRange
  exact : List Char
  score : ℚ
  method : Method
  deriving DecidableEq, Repr

/-- `CONTEXT_LENGTH` (anchoring.ts line 44). -/
def CONTEXT_LENGTH : Nat := 32

/-- `FUZZY_THRESHOLD` (anchoring.ts line 45). -/
def FUZZY_THRESHOLD : ℚ := 8 / 10

/-- One row update of the rolling-array Levenshtein loop (anchoring.ts
`levenshtein`, body of the outer `for` for `i ≥ 1`): `c2 = s2.charAt(i-1)`. -/
def levRow (a1 : Array Char) (c2 : Char) (i : Nat) (costs : Array Nat) : Array Nat :=
  let n := a1.size
  let out := (List.range n).foldl
    (fun (st : Array Nat × Nat) jm1 =>
      let costs := st.1
      let lastValue := st.2
      let newValue0 := costs.getD jm1 0
      let newValue :=
        if a1.getD jm1 ' ' ≠ c2 then
          min (min newValue0 lastValue) (costs.getD (jm1 + 1) 0) + 1
        else newValue0
      (costs.setD jm1 lastValue, newValue))
    (costs, i)
  out.1.setD n out.2

/-- `levenshtein(s1, s2)` (anchoring.ts lines 420-444): the rolling
single-array dynamic program of the source, row `i = 0` initializing
`costs[j] = j` and each further row produced by `levRow`. -/
def levenshtein (s1 s2 : List Char) : Nat :=
  let a1 := s1.toArray
  let init : Array Nat := Array.range (a1.size + 1)
  let final := (List.range s2.length).foldl
    (fun costs im1 => levRow a1 (s2.getD im1 ' ') (im1 + 1) costs) init
  final.getD a1.size 0

/-- `similarity(s1, s2)` (anchoring.ts lines 407-415):
`(longer.length − levenshtein(longer, shorter)) / longer.length`,
`1.0` when both strings are empty. -/
def similarity (s1 s2 : List Char) : ℚ :=
  let longer := if s1.length > s2.length then s1 else s2
  let shorter := if s1.length > s2.length then s2 else s1
  if longer.length = 0 then 1
  else ((longer.length : ℚ) - levenshtein longer shorter) / longer.length

/-- All start positions of `needle` in `hay`, in increasing order: the
`indexOf` loop of `findQuote` (anchoring.ts lines 173-178) enumerates
exactly these positions when `needle` is non-empty (every theorem below
about `findQuote` assumes a non-empty `exact`, as the source loop does not
terminate on an empty one). -/
def occurrencesOf (hay needle : List Char) : List Nat :=
  (List.range hay.length).filter (fun i => needle.isPrefixOf (hay.drop i))

/-- Loop of `createRangeFromOffset` (anchoring.ts lines 334-351):
`st` carries, once the start node has been found, its index, the offset
inside it and its length. -/
def createRangeGo (start stop : Int) :
    List (List Char) → Nat → Int → Option (Nat × Int × Nat) → Option DocRange
  | [], _, _, _ => none
  | n :: rest, idx, currentOffset, st =>
    let nodeLength : Int := n.length
    let st' :=
      if st = none ∧ currentOffset + nodeLength > start then
        some (idx, start - currentOffset, n.length)
      else st
    if currentOffset + nodeLength ≥ stop then
      match st' with
      | some (si, so, slen) =>
        -- `range.setStart` / `range.setEnd` throw (caught, returning null)
        -- when an offset is negative or larger than the node's length.
        let eo := stop - currentOffset
        if 0 ≤ so ∧ so ≤ (slen : Int) ∧ 0 ≤ eo ∧ eo ≤ nodeLength then
          some ⟨si, so.toNat, idx, eo.toNat⟩
        else none
      | none => none
    else createRangeGo start stop rest (idx + 1) (currentOffset + nodeLength) st'

/-- `createRangeFromOffset(start, end, textNodes)` (anchoring.ts lines
327-364): walk the text nodes accumulating offsets; the first node whose
span passes `start` supplies the start point, the first whose cumulative
end reaches `end` supplies the end point (the loop breaks there, so a start
lying further right is never found — the source then returns null). -/
def createRangeFromOffset (start stop : Int) (nodes : List (List Char)) : Option DocRange :=
  createRangeGo start stop nodes 0 0 none

/-- Context check of `findQuote` (anchoring.ts lines 188-195): the
occurrence's 32 characters of actual surrounding text must end with the
recorded prefix and start with the recorded suffix. -/
def quoteContextOk (d : TextAnchor) (fullText : List Char) (start : Nat) : Bool :=
  let actualPrefix := jsSlice fullText (start - CONTEXT_LENGTH) start
  let actualSuffix :=
    jsSlice fullText (start + d.exact.length) (start + d.exact.length + CONTEXT_LENGTH)
  d.pfx.isSuffixOf actualPrefix ∧ d.sfx.isPrefixOf actualSuffix

/-- `findQuote(descriptor, root)` (anchoring.ts lines 167-199): all
occurrences of the exact text; a unique occurrence is used directly,
several are disambiguated by context, and if no occurrence matches the
context the first one is the fallback. -/
def findQuote (d : TextAnchor) (nodes : List (List Char)) : Option DocRange :=
  let fullText := nodes.flatten
  match occurrencesOf fullText d.exact with
  | [] => none
  | o :: rest =>
    if rest = [] then
      createRangeFromOffset o (o + d.exact.length) nodes
    else
      match (o :: rest).find? (quoteContextOk d fullText) with
      | some o' => createRangeFromOffset o' (o' + d.exact.length) nodes
      | none => createRangeFromOffset o (o + d.exact.length) nodes

/-- One window position of the fuzzy scan (anchoring.ts lines 217-233,
the body of the `for` loop): score the window of the exact text's length
starting at `i`; a window qualifies only when its score strictly exceeds
`FUZZY_THRESHOLD`, improves on the best so far, and its averaged
prefix/suffix context similarity strictly exceeds `0.7`. -/
def fuzzyStep (d : TextAnchor) (fullText : List Char)
    (best : Option (Nat × ℚ × List Char)) (i : Nat) : Option (Nat × ℚ × List Char) :=
  let searchLength := d.exact.length
  let searchWindowSize := searchLength + 50
  let candidate := jsSlice fullText i (i + searchWindowSize)
  let score := similarity d.exact (candidate.take searchLength)
  if score > FUZZY_THRESHOLD ∧ (best = none ∨ ∃ b ∈ best, score > b.2.1) then
    let actualPrefix := jsSlice fullText (i - CONTEXT_LENGTH) i
    let actualSuffix :=
      jsSlice fullText (i + searchLength) (i + searchLength + CONTEXT_LENGTH)
    let contextScore :=
      (similarity d.pfx actualPrefix + similarity d.sfx actualSuffix) / 2
    if contextScore > 7 / 10 then some (i, score, candidate.take searchLength)
    else best
  else best

/-- Candidate scan of `findFuzzyQuote` (anchoring.ts lines 216-234): slide
the window start `i` from `0` to `fullText.length − searchLength + 50`
(exclusive; no iterations when that bound is not positive), keeping the
best qualifying window. -/
def fuzzyScan (d : TextAnchor) (fullText : List Char) : Option (Nat × ℚ × List Char) :=
  let bound : Nat := ((fullText.length : Int) - d.exact.length + 50).toNat
  (List.range bound).foldl (fuzzyStep d fullText) none

/-- `findFuzzyQuote(descriptor, root)` (anchoring.ts lines 204-252). -/
def findFuzzyQuote (d : TextAnchor) (nodes : List (List Char)) : Option AnchorResult :=
  let fullText := nodes.flatten
  match fuzzyScan d fullText with
  | none => none
  | some (start, score, text) =>
    match createRangeFromOffset start (start + (d.exact.length : Int)) nodes with
    | none => none
    | some range => some ⟨range, text, score, .fuzzy⟩

/-- `findByPosition(descriptor, root)` (anchoring.ts lines 257-267). -/
def findByPosition (d : TextAnchor) (nodes : List (List Char)) : Option DocRange :=
  let fullText := nodes.flatten
  if d.start ≥ (fullText.length : Int) ∨ d.stop > (fullText.length : Int) then none
  else createRangeFromOffset d.start d.stop nodes

/-- `range.toString()` of a resolved range: the document text it spans,
node by node. -/
def textOfRange (nodes : List (List Char)) (r : DocRange) : List Char :=
  (nodes.enum.map (fun p =>
    if p.1 < r.startIdx ∨ r.endIdx < p.1 then []
    else
      jsSlice p.2 (if p.1 = r.startIdx then r.startOff else 0)
        (if p.1 = r.endIdx then r.endOff else p.2.length))).flatten

/-- `describeRange(range, root)` (anchoring.ts lines 50-67) for a live
range `[s, e)` of the document's linearized visible text: the exact text is
the range's text, the context is the surrounding `CONTEXT_LENGTH`
characters, the offsets are the absolute positions (hints are not
modelled; see `TextAnchor`). -/
def describeRange (nodes : List (List Char)) (s e : Nat) : TextAnchor :=
  let fullText := nodes.flatten
  { exact := jsSlice fullText s e
    pfx := jsSlice fullText (s - CONTEXT_LENGTH) s
    sfx := jsSlice fullText e (e + CONTEXT_LENGTH)
    start := s
    stop := e }

/-- `anchor(descriptor, root)` (anchoring.ts lines 73-119): the resolution
cascade.  The optional Text-Fragments stage (lines 88-99) is skipped, as
the source skips it for a descriptor without a `textFragment` hint. -/
def anchorModel (d : TextAnchor) (nodes : List (List Char)) : Option AnchorResult :=
  match findQuote d nodes with
  | some r => some ⟨r, d.exact, 1, .exact⟩
  | none =>
    let positionStage : Option AnchorResult :=
      match findByPosition d nodes with
      | some r => some ⟨r, textOfRange nodes r, 1 / 2, .position⟩
      | none => none
    match findFuzzyQuote d nodes with
    | some f => if f.score ≥ FUZZY_THRESHOLD then some f else positionStage
    | none => positionStage

end SocraticReader.Anchoring

namespace SocraticReader.Chunking

/-! ## Semantic chunking module (`semantic-chunking` source file) -/

/-- `ABBREVIATIONS` (chunking source lines 187-193). -/
def ABBREVIATIONS : List (List Char) :=
  ["Dr", "Mr", "Mrs", "Ms", "Prof", "Sr", "Jr",
   "vs", "etc", "e.g", "i.e", "Ph.D", "M.D", "B.A", "M.A",
   "U.S", "U.K", "U.N", "E.U", "Inc", "Ltd", "Co", "Corp",
   "Jan", "Feb", "Mar", "Apr", "Jun", "Jul", "Aug", "Sep", "Sept", "Oct", "Nov", "Dec",
   "No", "vol", "pp", "Fig", "St", "Ave", "Blvd"].map String.data

/-- `PARAGRAPH_TRANSITIONS` (chunking source lines 217-223). -/
def PARAGRAPH_TRANSITIONS : List (List Char) :=
  ["furthermore", "moreover", "additionally", "in addition",
   "first", "second", "third", "finally", "lastly",
   "in conclusion", "to summarize", "in summary",
   "meanwhile", "subsequently", "previously",
   "another", "next", "then"].map String.data

/-- The JavaScript `\w` class: ASCII letters, digits, underscore. -/
def isWordChar (c : Char) : Bool :=
  ('a' ≤ c ∧ c ≤ 'z') ∨ ('A' ≤ c ∧ c ≤ 'Z') ∨ ('0' ≤ c ∧ c ≤ '9') ∨ c = '_'

/-- `/^[A-Z]$/` on a single character. -/
def isUpperAZ (c : Char) : Bool :=
  'A' ≤ c ∧ c ≤ 'Z'

/-- `/\d/` on a single character. -/
def isDigit09 (c : Char) : Bool :=
  '0' ≤ c ∧ c ≤ '9'

/-- `SentenceBoundary` (chunking source lines 225-229); the source's `end`
field (a reserved word in Lean) is named `stop`. -/
structure SentenceBoundary where
  start : Nat
  stop : Nat
  text : List Char
  deriving DecidableEq, Repr

/-- `Paragraph` (chunking source lines 231-235). -/
structure Paragraph where
  start : Nat
  stop : Nat
  sentences : List SentenceBoundary
  deriving DecidableEq, Repr

/-- `text.slice(Math.max(0, i - 10), i).match(/(\w+)$/)` : the maximal
word-character suffix of the ten characters before position `i`. -/
def lastWordRun (s : List Char) : List Char :=
  (s.reverse.takeWhile isWordChar).reverse

/-- The abbreviation test of `detectSentences` (chunking source lines
290-293): the word immediately before position `i` is a known
abbreviation. `match` returns null on an empty run, so the run must be
non-empty. -/
def isAbbrevBefore (text : List Char) (i : Nat) : Bool :=
  let w := lastWordRun (jsSlice text (i - 10) i)
  w ≠ [] ∧ ABBREVIATIONS.contains w

/-- The `while`-loop extending a sentence end over trailing spaces and tabs
(chunking source lines 307-309). -/
def extendSpacesTabs (text : List Char) (j : Nat) : Nat :=
  j + ((text.drop j).takeWhile (fun c => c = ' ' ∨ c = '\t')).length

/-- The `while`-loop skipping newlines before the next sentence (chunking
source lines 324-326). -/
def skipNewlines (text : List Char) (j : Nat) : Nat :=
  j + ((text.drop j).takeWhile (fun c => c = '\n' ∨ c = '\x0d')).length

/-- The initial `while`-loop skipping leading whitespace (chunking source
lines 260-262). -/
def skipLeadingWs (text : List Char) : Nat :=
  (text.takeWhile isJsSpace).length

/-- Tail of `detectSentences` (chunking source lines 332-341): any
remaining non-whitespace text becomes a final sentence. -/
def dsFinal (text : List Char) (currentStart : Nat) (acc : List SentenceBoundary) :
    List SentenceBoundary :=
  if currentStart < text.length then
    let remaining := jsTrim (text.drop currentStart)
    if remaining ≠ [] then acc ++ [⟨currentStart, text.length, remaining⟩] else acc
  else acc

/-- Main scan loop of `detectSentences` (chunking source lines 264-329).
The loop index `i` advances by at least one per step, so `text.length + 1`
fuel makes the fuel bound unreachable (the fuel-0 case mirrors the loop
exit). -/
def dsGo (text : List Char) : Nat → Nat → Nat → List SentenceBoundary → List SentenceBoundary
  | 0, _, currentStart, acc => dsFinal text currentStart acc
  | fuel + 1, i, currentStart, acc =>
    if i < text.length then
      let char := text.getD i ' '
      if char = '.' ∨ char = '!' ∨ char = '?' then
        -- ellipsis: skip all three periods
        if char = '.' ∧ text.get? (i + 1) = some '.' ∧ text.get? (i + 2) = some '.' then
          dsGo text fuel (i + 3) currentStart acc
        else
          -- multi-part abbreviation: previous char a single capital with a
          -- period or space before it (or at position 1)
          let prevUpper : Bool :=
            match charAt? text ((i : Int) - 1) with
            | some c => isUpperAZ c
            | none => false
          let beforePrev := charAt? text ((i : Int) - 2)
          let multiPart : Bool :=
            prevUpper && decide (beforePrev = some '.' ∨ beforePrev = some ' ' ∨ i = 1)
          let abbrv := isAbbrevBefore text i
          let prevDigit : Bool :=
            match charAt? text ((i : Int) - 1) with
            | some c => isDigit09 c
            | none => false
          let nextDigit : Bool :=
            match text.get? (i + 1) with
            | some c => isDigit09 c
            | none => false
          let nextIsSpace : Bool :=
            match text.get? (i + 1) with
            | some c => isJsSpace c
            | none => false
          let decimal : Bool := prevDigit && nextDigit
          if decide (char = '.') && (multiPart || abbrv || decimal) then
            dsGo text fuel (i + 1) currentStart acc
          else if decide (i + 1 ≥ text.length) || nextIsSpace then
            let sentenceEnd := extendSpacesTabs text (i + 1)
            let sentenceText := jsTrim (jsSlice text currentStart sentenceEnd)
            let acc' :=
              if sentenceText ≠ [] then acc ++ [⟨currentStart, sentenceEnd, sentenceText⟩]
              else acc
            dsGo text fuel (i + 1) (skipNewlines text sentenceEnd) acc'
          else
            dsGo text fuel (i + 1) currentStart acc
      else
        dsGo text fuel (i + 1) currentStart acc
    else dsFinal text currentStart acc

/-- `detectSentences(text)` (chunking source lines 255-344). -/
def detectSentences (text : List Char) : List SentenceBoundary :=
  dsGo text (text.length + 1) 0 (skipLeadingWs text) []

/-- `/\n\s*\n/.test(between)`: two newlines with only whitespace between
them. -/
def hasBlankLineRun : List Char → Bool
  | [] => false
  | c :: rest =>
    (c = '\n' ∧ (rest.takeWhile isJsSpace).contains '\n') ∨ hasBlankLineRun rest

/-- `isParagraphBoundary(text, end1, start2)` (chunking source lines
386-406). -/
def isParagraphBoundary (text : List Char) (end1 start2 : Nat) : Bool :=
  let between := jsSlice text end1 start2
  if hasBlankLineRun between then true
  else if between.contains '\n' then
    let nextSentenceStart := jsTrim ((jsSlice text start2 (start2 + 50)).map Char.toLower)
    PARAGRAPH_TRANSITIONS.any (fun t =>
      (t ++ [' ']).isPrefixOf nextSentenceStart ∨ nextSentenceStart = t)
  else false

/-- Loop of `detectParagraphs` (chunking source lines 357-378): push each
sentence onto the current paragraph; flush when the next sentence starts a
new paragraph or there is no next sentence. -/
def dpGo (text : List Char) :
    List SentenceBoundary → Nat → List SentenceBoundary → List Paragraph → List Paragraph
  | [], _, _, ps => ps
  | s :: rest, paragraphStart, current, ps =>
    let current' := current ++ [s]
    let brk :=
      match rest with
      | [] => true
      | nxt :: _ => isParagraphBoundary text s.stop nxt.start
    if brk then
      let ps' := ps ++ [⟨paragraphStart, s.stop, current'⟩]
      dpGo text rest
        (match rest with
         | [] => paragraphStart
         | nxt :: _ => nxt.start) [] ps'
    else dpGo text rest paragraphStart current' ps

/-- `detectParagraphs(text)` (chunking source lines 349-381). -/
def detectParagraphs (text : List Char) : List Paragraph :=
  match detectSentences text with
  | [] => []
  | s :: rest => dpGo text (s :: rest) s.start [] []

/-- `SemanticChunk` (chunking source lines 237-250).  The `salience` score
and `salienceFactors` breakdown (computed by `calculateSalience`, a
regex-counting heuristic none of the claims under verification concern)
are not modelled. -/
structure SemanticChunk where
  text : List Char
  start : Nat
  stop : Nat
  wordCount : Nat
  sentences : List SentenceBoundary
  deriving DecidableEq, Repr

/-- Mutable state of the `createSemanticChunks` loop: emitted chunks, the
working chunk's sentences, its running word count, and the next chunk's
start offset. -/
structure ChunkState where
  chunks : List SemanticChunk
  current : List SentenceBoundary
  count : Nat
  chunkStart : Nat
  deriving Repr

/-- Whitespace skip after a finalized chunk (chunking source lines
566-570). -/
def skipWsFrom (text : List Char) (j : Nat) : Nat :=
  j + ((text.drop j).takeWhile isJsSpace).length

/-- `finalizeChunk()` (chunking source lines 547-574): no-op on an empty
working chunk, otherwise emit the chunk and reset the accumulator. -/
def finalizeChunk (text : List Char) (st : ChunkState) : ChunkState :=
  match st.current.getLast? with
  | none => st
  | some last =>
    let chunkEnd := last.stop
    let chunk : SemanticChunk :=
      { text := jsSlice text st.chunkStart chunkEnd
        start := st.chunkStart
        stop := chunkEnd
        wordCount := st.count
        sentences := st.current }
    { chunks := st.chunks ++ [chunk]
      current := []
      count := 0
      chunkStart := skipWsFrom text chunkEnd }

/-- Per-sentence body of the chunking loop (chunking source lines 511-534).
`isLast` tells whether `s` is the paragraph's last sentence (the source
compares object identity with the paragraph's last element, which holds
exactly on the last iteration). -/
def addSentence (text : List Char) (targetW minW maxW : Nat) (isLast : Bool)
    (st : ChunkState) (s : SentenceBoundary) : ChunkState :=
  let sentenceWords := splitWsLen s.text
  let st :=
    if st.count + sentenceWords > maxW ∧ st.current ≠ [] then finalizeChunk text st
    else st
  let st := { st with current := st.current ++ [s], count := st.count + sentenceWords }
  if st.count ≥ targetW ∧ st.count ≥ minW ∧ isLast then finalizeChunk text st else st

/-- Fold of `addSentence` over one paragraph's sentences, flagging the last
one. -/
def addSentences (text : List Char) (targetW minW maxW : Nat)
    (st : ChunkState) : List SentenceBoundary → ChunkState
  | [] => st
  | [s] => addSentence text targetW minW maxW true st s
  | s :: s' :: rest =>
    addSentences text targetW minW maxW
      (addSentence text targetW minW maxW false st s) (s' :: rest)

/-- Per-paragraph body of the chunking loop (chunking source lines
510-540): after a paragraph, finalize whenever the working chunk has
reached the minimum. -/
def addParagraph (text : List Char) (targetW minW maxW : Nat)
    (st : ChunkState) (p : Paragraph) : ChunkState :=
  let st := addSentences text targetW minW maxW st p.sentences
  if st.count ≥ minW ∧ st.current ≠ [] then finalizeChunk text st else st

/-- `createSemanticChunks(text, target, min, max)` (chunking source lines
493-577). -/
def createSemanticChunks (text : List Char)
    (targetWordCount : Nat := 500) (minWordCount : Nat := 200)
    (maxWordCount : Nat := 800) : List SemanticChunk :=
  match detectParagraphs text with
  | [] => []
  | p :: ps =>
    let st0 : ChunkState := ⟨[], [], 0, p.start⟩
    let st := (p :: ps).foldl (addParagraph text targetWordCount minWordCount maxWordCount) st0
    let st := if st.current ≠ [] then finalizeChunk text st else st
    st.chunks

end SocraticReader.Chunking

namespace SocraticReader.LLM

/-! ## `src/shared/llm.ts` -/

/-- A parsed JSON value, the shape `JSON.parse` hands to the validators
(JavaScript `NaN`/`Infinity` cannot come out of `JSON.parse` and are not
modelled; field keys are unique as in any parsed JSON object). -/
inductive JSValue where
  | null
  | bool (b : Bool)
  | num (q : ℚ)
  | str (s : List Char)
  | arr (elems : List JSValue)
  | obj (fields : List (List Char × JSValue))

/-- JavaScript member access `v[k]`: `none` is `undefined`.  Only plain
objects carry these fields; arrays and primitives yield `undefined` for
every key the code reads. -/
def getField (v : JSValue) (k : List Char) : Option JSValue :=
  match v with
  | .obj fields => (fields.find? (fun p => p.1 = k)).map (·.2)
  | _ => none

/-- JavaScript truthiness of a defined value. -/
def truthy : JSValue → Bool
  | .null => false
  | .bool b => b
  | .num q => q ≠ 0
  | .str s => s ≠ []
  | .arr _ => true
  | .obj _ => true

/-- Decimal rendering used by `String(number)`: faithful for the integral
values that occur; non-integral JavaScript float formatting is
approximated (no theorem relies on it). -/
def ratToJsString (q : ℚ) : List Char :=
  if q.den = 1 then
    if q.num < 0 then '-' :: Nat.toDigits 10 q.num.natAbs
    else Nat.toDigits 10 q.num.natAbs
  else
    (if q.num < 0 then ['-'] else []) ++ Nat.toDigits 10 q.num.natAbs
      ++ '/' :: Nat.toDigits 10 q.den

/-- `String(v)` on a defined value.  Array rendering (recursive
comma-joining) is approximated by a constant; it is never relied upon. -/
def jsString : JSValue → List Char
  | .null => "null".data
  | .bool true => "true".data
  | .bool false => "false".data
  | .num q => ratToJsString q
  | .str s => s
  | .arr _ => "[array]".data
  | .obj _ => "[object Object]".data

/-- `String(x || '')` : the empty string when `x` is undefined or falsy,
its string coercion otherwise (llm.ts lines 202-204). -/
def jsCoerceString (v : Option JSValue) : List Char :=
  match v with
  | none => []
  | some x => if truthy x then jsString x else []

/-- `Highlight` (types.ts lines 25-31); the source's `end` field is named
`stop`. -/
structure Highlight where
  start : ℚ
  stop : ℚ
  reason : List Char
  question : List Char
  explanation : List Char
  deriving DecidableEq, Repr

/-- `AnalysisResult` (types.ts lines 34-36). -/
structure AnalysisResult where
  highlights : List Highlight
  deriving DecidableEq, Repr

/-- `validateHighlight(h, index)` (llm.ts lines 180-206); a thrown
`LLMError` is modelled as `.error` with its message. -/
def validateHighlight (index : Nat) (h : JSValue) : Except (List Char) Highlight :=
  match h with
  | .obj _ | .arr _ =>
    match getField h "start".data, getField h "end".data with
    | some (.num s), some (.num e) =>
      if s ≥ e then
        .error ("Highlight ".data ++ Nat.toDigits 10 index ++ " has invalid offset range".data)
      else if s < 0 then
        .error ("Highlight ".data ++ Nat.toDigits 10 index ++ " has negative start offset".data)
      else
        .ok { start := s
              stop := e
              reason := jsCoerceString (getField h "reason".data)
              question := jsCoerceString (getField h "question".data)
              explanation := jsCoerceString (getField h "explanation".data) }
    | _, _ =>
      .error ("Highlight ".data ++ Nat.toDigits 10 index ++ " has invalid offset types".data)
  | _ => .error ("Highlight ".data ++ Nat.toDigits 10 index ++ " is not an object".data)

/-- `obj.highlights.map((h, i) => validateHighlight(h, i))` : the first
thrown error aborts the whole mapping (llm.ts line 262). -/
def validateHighlights (startIdx : Nat) : List JSValue → Except (List Char) (List Highlight)
  | [] => .ok []
  | h :: rest =>
    match validateHighlight startIdx h with
    | .error e => .error e
    | .ok v =>
      match validateHighlights (startIdx + 1) rest with
      | .error e => .error e
      | .ok vs => .ok (v :: vs)

/-- Validation stage of `parseResponse` (llm.ts lines 252-264), applied to
the JSON value produced by `JSON.parse` (content extraction and JSON
parsing precede it; all their failure modes also throw `LLMError`). -/
def parseResponseBody (parsed : JSValue) : Except (List Char) AnalysisResult :=
  match parsed with
  | .obj _ | .arr _ =>
    match getField parsed "highlights".data with
    | some (.arr hs) =>
      match validateHighlights 0 hs with
      | .error e => .error e
      | .ok v => .ok ⟨v⟩
    | _ => .error "Response missing highlights array".data
  | _ => .error "Response is not an object".data

/-- `ChatResult` as produced by `parseChatResponse`. -/
structure ChatResult where
  response : List Char
  aporiaScore : ℚ
  deriving DecidableEq, Repr

/-- Clamping stage of `parseChatResponse` (llm.ts lines 453-459), applied
to the JSON value produced by `JSON.parse`. -/
def parseChatResponseBody (parsed : JSValue) : ChatResult :=
  let rawScore :=
    match getField parsed "aporiaScore".data with
    | some (.num q) => q
    | _ => 0
  { response := jsCoerceString (getField parsed "response".data)
    aporiaScore := max 0 (min 1 rawScore) }

end SocraticReader.LLM

namespace SocraticReader.Content

/-! ## `src/content.ts` -/

/-- `NodeRange` (types.ts lines 50-55): `node` is the referenced text
node's current `textContent`; the source's `end` field is named `stop`. -/
structure NodeRange where
  node : List Char
  start : Nat
  stop : Nat
  globalOffset : Nat
  deriving DecidableEq, Repr

/-- `TextChunk` (types.ts lines 58-62). -/
structure TextChunk where
  text : List Char
  nodeRanges : List NodeRange
  globalOffset : Nat
  deriving DecidableEq, Repr

/-- A DOM `Range` built by `offsetToRange`: node indices into the chunk's
`nodeRanges` with character offsets inside those nodes. -/
structure MappedRange where
  startIdx : Nat
  startOff : Nat
  endIdx : Nat
  endOff : Nat
  deriving DecidableEq, Repr

/-- The concatenated current text of the chunk's node spans (content.ts
lines 661-663). -/
def derivedText (chunk : TextChunk) : List Char :=
  (chunk.nodeRanges.map (fun nr => jsSlice nr.node nr.start nr.stop)).flatten

/-- `totalLength` (content.ts line 672). -/
def totalLen (chunk : TextChunk) : Int :=
  chunk.nodeRanges.foldl (fun s nr => s + ((nr.stop : Int) - (nr.start : Int))) 0

/-- Outcome of the node walk of `offsetToRange`: an early `return`
(`.ret`), or falling off the node list with the found start point
(`.fell`). -/
inductive OtrStep where
  | ret (r : Option MappedRange)
  | fell (startFound : Option (Nat × Nat))
  deriving DecidableEq, Repr

/-- Node walk of `offsetToRange` (content.ts lines 688-793).  Empty and
out-of-bounds node spans are skipped without advancing the running offset;
the in-branch re-checks of the node length mirror the source's
re-validation (a no-op here, as the model is single-threaded between
extraction and use). -/
def otrGo (start cappedEnd : Int) :
    List NodeRange → Nat → Int → Option (Nat × Nat) → OtrStep
  | [], _, _, sf => .fell sf
  | nr :: rest, idx, cur, sf =>
    let actualNodeLength := nr.node.length
    if actualNodeLength = 0 then otrGo start cappedEnd rest (idx + 1) cur sf
    else if nr.start ≥ actualNodeLength ∨ nr.stop > actualNodeLength then
      otrGo start cappedEnd rest (idx + 1) cur sf
    else
      let nodeContribution : Int := (nr.stop : Int) - (nr.start : Int)
      let nodeStart := cur
      let nodeEnd := cur + nodeContribution
      let startAttempt : Except OtrStep (Option (Nat × Nat)) :=
        if sf = none ∧ start ≥ nodeStart ∧ start < nodeEnd then
          let actualNodeOffset := (nr.start : Int) + (start - nodeStart)
          if actualNodeOffset > (actualNodeLength : Int) then .error (.ret none)
          else .ok (some (idx, actualNodeOffset.toNat))
        else .ok sf
      match startAttempt with
      | .error r => r
      | .ok sf' =>
        if sf'.isSome ∧ cappedEnd > nodeStart ∧ cappedEnd ≤ nodeEnd then
          let actualNodeOffset := (nr.start : Int) + (cappedEnd - nodeStart)
          if actualNodeOffset > (actualNodeLength : Int) then .ret none
          else
            match sf' with
            | some s => .ret (some ⟨s.1, s.2, idx, actualNodeOffset.toNat⟩)
            | none => .ret none
        else otrGo start cappedEnd rest (idx + 1) nodeEnd sf'

/-- `offsetToRange(chunk, start, end)` (content.ts lines 654-828). -/
def offsetToRange (chunk : TextChunk) (start stop : Int) : Option MappedRange :=
  if start < 0 ∨ stop ≤ start ∨ chunk.nodeRanges = [] then none
  else if derivedText chunk ≠ chunk.text then none
  else
    let totalLength := totalLen chunk
    if start ≥ totalLength then none
    else
      let cappedEnd := min stop totalLength
      match otrGo start cappedEnd chunk.nodeRanges 0 0 none with
      | .ret r => r
      | .fell none => none
      | .fell (some s) =>
        -- end past the last node (content.ts lines 796-820)
        match chunk.nodeRanges.getLast? with
        | none => none
        | some lastRange =>
          let nodeLength := lastRange.node.length
          if nodeLength = 0 then none
          else if lastRange.stop > nodeLength then none
          else some ⟨s.1, s.2, chunk.nodeRanges.length - 1, lastRange.stop⟩

/-- One chat turn's score update (content.ts lines 2337-2338): the session
keeps the maximum of its previous score and the returned one. -/
def chatTurnScore (prev returned : ℚ) : ℚ :=
  max prev returned

/-- The session's tracked score after each turn of a returned-score
sequence, starting from `current` (a session is created with score `0.1`,
content.ts line 2157). -/
def trackScores (current : ℚ) : List ℚ → List ℚ
  | [] => []
  | r :: rest =>
    let s := chatTurnScore current r
    s :: trackScores s rest

end SocraticReader.Content

namespace SocraticReader.LLM

/-- The `highlights` field of a parsed response when it is an array
(`Array.isArray(obj.highlights)`, llm.ts line 257). -/
def highlightsField (v : JSValue) : Option (List JSValue) :=
  match getField v "highlights".data with
  | some (.arr hs) => some hs
  | _ => none

/-- A highlight value with invalid offsets in the sense of the contract:
`start`/`end` missing or non-numeric, `start ≥ end`, or `start < 0`. -/
def badOffsets (h : JSValue) : Bool :=
  match getField h "start".data, getField h "end".data with
  | some (.num s), some (.num e) => e ≤ s ∨ s < 0
  | _, _ => true

end SocraticReader.LLM

namespace SocraticReader.Chunking

/-- The word count of a chunk's first sentence. -/
def headWords (c : SemanticChunk) : Nat :=
  match c.sentences with
  | [] => 0
  | s :: _ => splitWsLen s.text

/-- Relation between consecutive chunks: a chunk reaches the minimum word
count, or it was closed because its successor's first sentence would have
pushed it over the maximum. -/
def pairOk (m M : Nat) (c d : SemanticChunk) : Prop :=
  m ≤ c.wordCount ∨ M < c.wordCount + headWords d

/-- All sentences of a chunk list, in order. -/
def joinSent (cs : List SemanticChunk) : List SentenceBoundary :=
  (cs.map SemanticChunk.sentences).flatten

/-- All sentences a chunking state accounts for: those already emitted in
chunks followed by the working chunk's. -/
def stateSent (st : ChunkState) : List SentenceBoundary :=
  joinSent st.chunks ++ st.current

/-- All sentences of a paragraph list, in order. -/
def paraSent (ps : List Paragraph) : List SentenceBoundary :=
  (ps.map Paragraph.sentences).flatten

/-- The chunking loop's invariant over its running state. -/
structure ChunkInv (m M : Nat) (st : ChunkState) : Prop where
  emptyCount : st.current = [] → st.count = 0
  bigSingle : M < st.count → st.current.length ≤ 1
  chunksOk : ∀ c ∈ st.chunks, c.wordCount ≤ M ∨ c.sentences.length = 1
  chainOk : List.Chain' (pairOk m M) st.chunks
  pendingOk : ∀ c, st.chunks.getLast? = some c → ∀ s ss, st.current = s :: ss →
    m ≤ c.wordCount ∨ M < c.wordCount + splitWsLen s.text
  lastMin : st.current = [] → ∀ c, st.chunks.getLast? = some c → m ≤ c.wordCount

end SocraticReader.Chunking

namespace SocraticReader

/-! ## Concrete instances used by counterexamples and witnesses -/

/-- A descriptor whose best fuzzy window scores exactly `0.8`. -/
def c1AnchorA : Anchoring.TextAnchor :=
  ⟨"aaaaa".data, [], [], 0, 5⟩

/-- Document for `c1AnchorA`: one character off the exact text. -/
def c1DocA : List (List Char) := ["aaaab".data]

/-- A descriptor whose best fuzzy window scores `0.9`. -/
def c1AnchorB : Anchoring.TextAnchor :=
  ⟨"aaaaaaaaaa".data, [], [], 0, 10⟩

/-- Document for `c1AnchorB`. -/
def c1DocB : List (List Char) := ["aaaaaaaaab".data]

/-- The fuzzy result the cascade produces for `c1AnchorB` on `c1DocB`. -/
def c1ResB : Anchoring.AnchorResult :=
  ⟨⟨0, 0, 0, 10⟩, "aaaaaaaaab".data, 9 / 10, .fuzzy⟩

/-- A two-node document for the round-trip witness. -/
def c2Doc : List (List Char) := ["hello ".data, "world".data]

/-- A non-trivial descriptor anchored against an empty document. -/
def c3Anchor : Anchoring.TextAnchor := ⟨"hi".data, [], [], 0, 2⟩

/-- The first chunk `createSemanticChunks "a b. c d e f." 10 3 5` emits. -/
def c4Chunk1 : Chunking.SemanticChunk :=
  { text := "a b. ".data
    start := 0
    stop := 5
    wordCount := 2
    sentences := [⟨0, 5, "a b.".data⟩] }

/-- A one-node chunk for the offset-mapping witness. -/
def c7Chunk : Content.TextChunk :=
  ⟨"hello".data, [⟨"hello".data, 0, 5, 0⟩], 0⟩

/-- A response whose only highlight has `start = 3 ≥ end = 1`. -/
def c8BadResponse : LLM.JSValue :=
  .obj [("highlights".data, .arr [.obj [("start".data, .num 3), ("end".data, .num 1)]])]

/-- The offending highlight inside `c8BadResponse`. -/
def c8BadHighlight : LLM.JSValue :=
  .obj [("start".data, .num 3), ("end".data, .num 1)]

/-- A well-offset highlight with a falsy `reason` and no `question`. -/
def c10Highlight : LLM.JSValue :=
  .obj [("start".data, .num 0), ("end".data, .num 1), ("reason".data, .num 0)]

end SocraticReader

namespace SocraticReader

/-! ## Theorems -/

section Claims

open Anchoring Chunking LLM Content

/-- C6: `detectSentences` on
`"Dr. Smith works at the U.S. Embassy. He is very skilled."` yields exactly
the two sentences, the first ending in `"Embassy."` — the periods of the
abbreviation `Dr` and of the multi-part abbreviation `U.S.` do not split. -/
theorem c6_abbreviation_safe :
    (Chunking.detectSentences
        "Dr. Smith works at the U.S. Embassy. He is very skilled.".data).map
        Chunking.SentenceBoundary.text =
      ["Dr. Smith works at the U.S. Embassy.".data, "He is very skilled.".data] := by
  decide

/-- C9: the parsed chat score is clamped to `[0, 1]`; a turn's tracked
score is the maximum of the previous tracked score and the returned one;
the returned sequence `[0.1, 0.4, 0.6, 0.3, 0.98, 1.0, 0.7]` yields the
tracked sequence `[0.1, 0.4, 0.6, 0.6, 0.98, 1.0, 1.0]`. -/
theorem c9_aporia_clamped_monotone :
    (∀ v : LLM.JSValue, 0 ≤ (LLM.parseChatResponseBody v).aporiaScore ∧
        (LLM.parseChatResponseBody v).aporiaScore ≤ 1) ∧
    (∀ prev returned : ℚ, Content.chatTurnScore prev returned = max prev returned) ∧
    Content.trackScores (1 / 10)
        [1 / 10, 4 / 10, 6 / 10, 3 / 10, 98 / 100, 1, 7 / 10] =
      [1 / 10, 4 / 10, 6 / 10, 6 / 10, 98 / 100, 1, 1] := by
  refine ⟨fun v => ?_, fun _ _ => rfl,
    by norm_num [Content.trackScores, Content.chatTurnScore]⟩
  unfold LLM.parseChatResponseBody
  exact ⟨le_max_left _ _, max_le (by norm_num) (min_le_left _ _)⟩

/-- C10: a highlight object whose `start`/`end` are numbers with
`0 ≤ start < end` always validates; the `reason`, `question` and
`explanation` fields are coerced with `String(x || '')` — the empty string
when absent or falsy — and can never cause a rejection. -/
theorem c10_nonoffset_fields_coerced :
    (∀ (i : Nat) (v : LLM.JSValue) (a b : ℚ),
      LLM.getField v "start".data = some (.num a) →
      LLM.getField v "end".data = some (.num b) →
      0 ≤ a → a < b →
      LLM.validateHighlight i v =
        .ok { start := a, stop := b
              reason := LLM.jsCoerceString (LLM.getField v "reason".data)
              question := LLM.jsCoerceString (LLM.getField v "question".data)
              explanation := LLM.jsCoerceString (LLM.getField v "explanation".data) }) ∧
    (∀ o : Option LLM.JSValue,
      (o = none ∨ ∃ x, o = some x ∧ LLM.truthy x = false) → LLM.jsCoerceString o = []) := by
  constructor
  · intro i v a b hs he ha hab
    match v with
    | .obj fields =>
      simp only [LLM.validateHighlight, hs, he]
      rw [if_neg (by exact not_le.mpr hab), if_neg (by exact not_lt.mpr ha)]
    | .null | .bool _ | .num _ | .str _ | .arr _ => simp [LLM.getField] at hs
  · rintro o (rfl | ⟨x, rfl, hx⟩)
    · rfl
    · simp [LLM.jsCoerceString, hx]

/-- Witness for C10 at a concrete highlight with a falsy `reason` and
missing `question`/`explanation`. -/
theorem c10_witness :
    LLM.validateHighlight 0 c10Highlight = .ok ⟨0, 1, [], [], []⟩ ∧
    LLM.jsCoerceString (LLM.getField c10Highlight "reason".data) = [] := by
  constructor
  · exact c10_nonoffset_fields_coerced.1 0 c10Highlight 0 1 rfl rfl (by norm_num) (by norm_num)
  · exact c10_nonoffset_fields_coerced.2 _ (Or.inr ⟨.num 0, rfl, by decide⟩)

/-- A successful validation forces well-formed numeric offsets. -/
theorem validateHighlight_ok_offsets {i : Nat} {h : LLM.JSValue} {v : LLM.Highlight}
    (hok : LLM.validateHighlight i h = .ok v) : LLM.badOffsets h = false := by
  match h with
  | .null | .bool _ | .num _ | .str _ => exact Except.noConfusion hok
  | .obj fields | .arr elems =>
    simp only [LLM.validateHighlight] at hok
    split at hok
    next s e heq1 heq2 =>
      split_ifs at hok with h1 h2
      simp only [LLM.badOffsets, heq1, heq2, decide_eq_false_iff_not]
      push_neg
      exact ⟨not_le.mp h1, not_lt.mp h2⟩
    next => exact Except.noConfusion hok

/-- A highlight with bad offsets is rejected by `validateHighlight`. -/
theorem validateHighlight_error_of_bad (i : Nat) (h : LLM.JSValue)
    (hbad : LLM.badOffsets h = true) : ∃ e, LLM.validateHighlight i h = .error e := by
  cases hE : LLM.validateHighlight i h with
  | error e => exact ⟨e, rfl⟩
  | ok v => exact absurd hbad (by simp [validateHighlight_ok_offsets hE])

/-- If any element of the list has bad offsets, the whole mapping errors. -/
theorem validateHighlights_error_of_bad {h : LLM.JSValue} :
    ∀ (hs : List LLM.JSValue) (i : Nat), h ∈ hs → LLM.badOffsets h = true →
      ∃ e, LLM.validateHighlights i hs = .error e := by
  intro hs
  induction hs with
  | nil => intro i hmem; exact absurd hmem (List.not_mem_nil _)
  | cons h' rest ih =>
    intro i hmem hbad
    cases hE : LLM.validateHighlight i h' with
    | error e => exact ⟨e, by simp [LLM.validateHighlights, hE]⟩
    | ok v =>
      rcases List.mem_cons.mp hmem with rfl | hmem'
      · exact absurd hbad (by simp [validateHighlight_ok_offsets hE])
      · obtain ⟨e, hrec⟩ := ih (i + 1) hmem' hbad
        exact ⟨e, by simp [LLM.validateHighlights, hE, hrec]⟩

/-- C8: `parseResponse` rejects — with a typed error and no highlights —
every response whose content has no `highlights` array, and every response
one of whose highlights has non-numeric offsets, `start ≥ end`, or a
negative `start`; such values are never coerced. -/
theorem c8_malformed_rejected (v : LLM.JSValue) :
    (LLM.highlightsField v = none → ∃ e, LLM.parseResponseBody v = .error e) ∧
    (∀ hs h, LLM.highlightsField v = some hs → h ∈ hs → LLM.badOffsets h = true →
      ∃ e, LLM.parseResponseBody v = .error e) := by
  constructor
  · intro hF
    match v with
    | .null | .bool _ | .num _ | .str _ | .arr _ => exact ⟨_, rfl⟩
    | .obj fields =>
      cases hG : LLM.getField (.obj fields) "highlights".data with
      | none =>
        exact ⟨"Response missing highlights array".data,
          by simp [LLM.parseResponseBody, hG]⟩
      | some x =>
        cases x with
        | arr hs => simp [LLM.highlightsField, hG] at hF
        | null | bool _ | num _ | str _ | obj _ =>
          exact ⟨"Response missing highlights array".data,
            by simp [LLM.parseResponseBody, hG]⟩
  · intro hs h hF hmem hbad
    match v with
    | .null | .bool _ | .num _ | .str _ | .arr _ => simp [LLM.highlightsField, LLM.getField] at hF
    | .obj fields =>
      cases hG : LLM.getField (.obj fields) "highlights".data with
      | none => simp [LLM.highlightsField, hG] at hF
      | some x =>
        cases x with
        | arr hs' =>
          have hx : hs' = hs := by simpa [LLM.highlightsField, hG] using hF
          subst hx
          obtain ⟨e, hErr⟩ := validateHighlights_error_of_bad hs' 0 hmem hbad
          exact ⟨e, by simp [LLM.parseResponseBody, hG, hErr]⟩
        | null | bool _ | num _ | str _ | obj _ => simp [LLM.highlightsField, hG] at hF

/-- Witness for C8: a response without a `highlights` array and a response
whose highlight has `start = 3 ≥ end = 1` are both rejected. -/
theorem c8_witness :
    (∃ e, LLM.parseResponseBody (.obj []) = .error e) ∧
    (∃ e, LLM.parseResponseBody c8BadResponse = .error e) :=
  ⟨(c8_malformed_rejected (.obj [])).1 rfl,
   (c8_malformed_rejected c8BadResponse).2 [c8BadHighlight] c8BadHighlight rfl
     (List.Mem.head _) rfl⟩

/-- The `createRangeFromOffset` walk succeeds whenever the requested span
lies inside the concatenated node text (stated over the loop's full state
for the induction). -/
theorem createRangeGo_isSome {start stop : Int} (hlt : start < stop) :
    ∀ (nodes : List (List Char)) (idx : Nat) (cur : Int) (st : Option (Nat × Int × Nat)),
      (st = none → cur ≤ start) →
      (∀ p : Nat × Int × Nat, st = some p → 0 ≤ p.2.1 ∧ p.2.1 ≤ (p.2.2 : Int)) →
      cur < stop → stop ≤ cur + (nodes.flatten.length : Int) →
      (Anchoring.createRangeGo start stop nodes idx cur st).isSome := by
  intro nodes
  induction nodes with
  | nil =>
    intro idx cur st _ _ h3 h4
    simp only [List.flatten_nil, List.length_nil, Nat.cast_zero, add_zero] at h4
    omega
  | cons n rest ih =>
    intro idx cur st h1 h2 h3 h4
    have hflat : ((n :: rest).flatten.length : Int) =
        (n.length : Int) + (rest.flatten.length : Int) := by
      simp [List.flatten_cons]
    rw [Anchoring.createRangeGo]
    dsimp only
    by_cases htrig : cur + (n.length : Int) ≥ stop
    · rw [if_pos htrig]
      by_cases hc1 : st = none ∧ cur + (n.length : Int) > start
      · rw [if_pos hc1]
        have hcle : cur ≤ start := h1 hc1.1
        dsimp only
        rw [if_pos ⟨by omega, by omega, by omega, by omega⟩]
        rfl
      · rw [if_neg hc1]
        cases hst : st with
        | none => exact absurd ⟨hst, by omega⟩ hc1
        | some p =>
          obtain ⟨si, so, slen⟩ := p
          have hv := h2 _ hst
          simp only at hv
          dsimp only
          rw [if_pos ⟨hv.1, hv.2, by omega, by omega⟩]
          rfl
    · rw [if_neg htrig]
      by_cases hc1 : st = none ∧ cur + (n.length : Int) > start
      · obtain ⟨hq1, hq2⟩ := hc1
        rw [if_pos ⟨hq1, hq2⟩]
        refine ih (idx + 1) (cur + (n.length : Int)) _ (by simp) ?_ (by omega) (by omega)
        intro p hp
        injection hp with hp
        subst hp
        have hcle : cur ≤ start := h1 hq1
        dsimp only
        exact ⟨by omega, by omega⟩
      · rw [if_neg hc1]
        refine ih (idx + 1) (cur + (n.length : Int)) st ?_ h2 (by omega) (by omega)
        intro hnone
        have := h1 hnone
        rcases (not_and_or.mp hc1) with h | h
        · exact absurd hnone h
        · omega

/-- `createRangeFromOffset` succeeds on any in-bounds non-empty span. -/
theorem createRangeFromOffset_isSome {start stop : Int} {nodes : List (List Char)}
    (h0 : 0 ≤ start) (hlt : start < stop) (hle : stop ≤ (nodes.flatten.length : Int)) :
    (Anchoring.createRangeFromOffset start stop nodes).isSome :=
  createRangeGo_isSome hlt nodes 0 0 none (fun _ => h0)
    (fun _ hp => by simp at hp) (by omega) (by rw [zero_add]; exact hle)

/-- Membership in the occurrence list gives the prefix property and the
position bound. -/
theorem mem_occurrencesOf {hay needle : List Char} {x : Nat}
    (hx : x ∈ Anchoring.occurrencesOf hay needle) :
    needle.isPrefixOf (hay.drop x) ∧ x < hay.length := by
  have := List.mem_filter.mp hx
  exact ⟨this.2, List.mem_range.mp this.1⟩

/-- An occurrence fits inside the text. -/
theorem occ_add_len_le {hay needle : List Char} {x : Nat}
    (hx : x ∈ Anchoring.occurrencesOf hay needle) :
    x + needle.length ≤ hay.length := by
  obtain ⟨hpre, hlt⟩ := mem_occurrencesOf hx
  have hq := (List.isPrefixOf_iff_prefix.mp hpre).length_le
  rw [List.length_drop] at hq
  omega

/-- `findQuote` succeeds whenever the exact text is non-empty and occurs
in the document text. -/
theorem findQuote_isSome {d : Anchoring.TextAnchor} {nodes : List (List Char)}
    (hne : d.exact ≠ [])
    (hocc : Anchoring.occurrencesOf nodes.flatten d.exact ≠ []) :
    (Anchoring.findQuote d nodes).isSome := by
  have hlen : 0 < d.exact.length := List.length_pos.mpr hne
  have hcreate : ∀ x ∈ Anchoring.occurrencesOf nodes.flatten d.exact,
      (Anchoring.createRangeFromOffset x (x + d.exact.length) nodes).isSome := by
    intro x hx
    have hb := occ_add_len_le hx
    exact createRangeFromOffset_isSome (Int.ofNat_nonneg x) (by omega) (by omega)
  unfold Anchoring.findQuote
  cases hO : Anchoring.occurrencesOf nodes.flatten d.exact with
  | nil => exact absurd hO hocc
  | cons o rest =>
    have hmemo : o ∈ Anchoring.occurrencesOf nodes.flatten d.exact := by
      rw [hO]; exact List.Mem.head _
    dsimp only
    rw [hO]
    dsimp only
    by_cases hr : rest = []
    · rw [if_pos hr]
      exact hcreate o hmemo
    · rw [if_neg hr]
      cases hF : (o :: rest).find? (Anchoring.quoteContextOk d nodes.flatten) with
      | some x =>
        refine hcreate x ?_
        rw [hO]
        exact List.mem_of_find?_eq_some hF
      | none => exact hcreate o hmemo

/-- The length of a JavaScript slice. -/
theorem jsSlice_length (s : List Char) (a b : Nat) :
    (jsSlice s a b).length = min b s.length - a := by
  simp [jsSlice]

/-- A range's own text occurs at its own start position. -/
theorem self_mem_occurrencesOf {full : List Char} {s e : Nat}
    (hse : s < e) (hel : e ≤ full.length) :
    s ∈ Anchoring.occurrencesOf full (jsSlice full s e) := by
  rw [Anchoring.occurrencesOf, List.mem_filter]
  refine ⟨List.mem_range.mpr (by omega), ?_⟩
  rw [List.isPrefixOf_iff_prefix]
  refine ⟨full.drop e, ?_⟩
  have hsplit : full.drop s = (full.take e).drop s ++ (full.drop e).drop (s - (full.take e).length) := by
    conv_lhs => rw [← List.take_append_drop e full]
    exact List.drop_append_eq_append_drop
  have htlen : (full.take e).length = e := by
    simp [List.length_take]; omega
  rw [htlen] at hsplit
  have hz : s - e = 0 := by omega
  rw [hz, List.drop_zero] at hsplit
  exact hsplit.symm

/-- C2: describing a live non-collapsed range `[s, e)` of the unchanged
document and re-anchoring the descriptor immediately yields a result with
score `1.0`, method `exact`, and `exact` equal to the range's text (a
zero-length selection is a degenerate input the engine does not anchor). -/
theorem c2_roundtrip_anchoring (nodes : List (List Char)) (s e : Nat)
    (hse : s < e) (hel : e ≤ nodes.flatten.length) :
    ∃ r, Anchoring.anchorModel (Anchoring.describeRange nodes s e) nodes = some r ∧
      r.score = 1 ∧ r.method = .exact ∧ r.exact = jsSlice nodes.flatten s e := by
  have hexact : (Anchoring.describeRange nodes s e).exact = jsSlice nodes.flatten s e := rfl
  have hne : (Anchoring.describeRange nodes s e).exact ≠ [] := by
    rw [hexact]
    intro h
    have hl := congrArg List.length h
    rw [jsSlice_length, List.length_nil] at hl
    omega
  have hocc : Anchoring.occurrencesOf nodes.flatten (Anchoring.describeRange nodes s e).exact ≠ [] := by
    rw [hexact]
    exact List.ne_nil_of_mem (self_mem_occurrencesOf hse hel)
  obtain ⟨r', hr'⟩ := Option.isSome_iff_exists.mp (findQuote_isSome hne hocc)
  refine ⟨⟨r', (Anchoring.describeRange nodes s e).exact, 1, .exact⟩, ?_, rfl, rfl, hexact⟩
  unfold Anchoring.anchorModel
  rw [hr']

/-- Witness for C2 on a concrete two-node document. -/
theorem c2_roundtrip_witness :
    ∃ r, Anchoring.anchorModel (Anchoring.describeRange c2Doc 0 5) c2Doc = some r ∧
      r.score = 1 ∧ r.method = .exact ∧ r.exact = jsSlice c2Doc.flatten 0 5 :=
  c2_roundtrip_anchoring c2Doc 0 5 (by norm_num) (by decide)

/-- `levenshtein` against the empty string is the string's length (the
outer loop runs no rows and the initial `costs` row survives). -/
theorem levenshtein_nil_right (s : List Char) : Anchoring.levenshtein s [] = s.length := by
  unfold Anchoring.levenshtein
  simp [Array.getD, Array.size_range, Array.getElem_range]

/-- `similarity` of a non-empty string with the empty string is `0`. -/
theorem similarity_nil_right {s : List Char} (h : s ≠ []) :
    Anchoring.similarity s [] = 0 := by
  have hpos : 0 < s.length := List.length_pos.mpr h
  unfold Anchoring.similarity
  simp only [List.length_nil, hpos, if_pos, gt_iff_lt]
  rw [if_neg (by omega), levenshtein_nil_right, sub_self, zero_div]

/-- On an empty document text every fuzzy window is empty and scores `0`,
so the scan keeps no candidate. -/
theorem fuzzyScan_nil {d : Anchoring.TextAnchor} (hne : d.exact ≠ []) :
    Anchoring.fuzzyScan d [] = none := by
  have hstep : ∀ (i : Nat), Anchoring.fuzzyStep d [] none i = none := by
    intro i
    unfold Anchoring.fuzzyStep
    dsimp only
    rw [if_neg]
    rintro ⟨hgt, -⟩
    rw [show jsSlice [] i (i + (d.exact.length + 50)) = [] by simp [jsSlice]] at hgt
    rw [List.take_nil, similarity_nil_right hne] at hgt
    rw [Anchoring.FUZZY_THRESHOLD] at hgt
    norm_num at hgt
  unfold Anchoring.fuzzyScan
  dsimp only
  generalize List.range _ = l
  induction l with
  | nil => rfl
  | cons i rest ih => rw [List.foldl_cons, hstep i, ih]

/-- C3: anchoring fails closed — any descriptor with non-empty exact text
and positive end offset resolves to `null` against a document whose
linearized text is empty; and in general, when the exact, fuzzy and
position strategies all fail, `anchor` returns `null` (it never throws:
the model is a total function into an option). -/
theorem c3_anchor_fails_closed :
    (∀ (d : Anchoring.TextAnchor) (nodes : List (List Char)),
      d.exact ≠ [] → 0 < d.stop → nodes.flatten = [] →
      Anchoring.anchorModel d nodes = none) ∧
    (∀ (d : Anchoring.TextAnchor) (nodes : List (List Char)),
      Anchoring.findQuote d nodes = none →
      Anchoring.findFuzzyQuote d nodes = none →
      Anchoring.findByPosition d nodes = none →
      Anchoring.anchorModel d nodes = none) := by
  have part2 : ∀ (d : Anchoring.TextAnchor) (nodes : List (List Char)),
      Anchoring.findQuote d nodes = none →
      Anchoring.findFuzzyQuote d nodes = none →
      Anchoring.findByPosition d nodes = none →
      Anchoring.anchorModel d nodes = none := by
    intro d nodes h1 h2 h3
    unfold Anchoring.anchorModel
    rw [h1, h2, h3]
  refine ⟨?_, part2⟩
  intro d nodes hne hstop hflat
  have h1 : Anchoring.findQuote d nodes = none := by
    unfold Anchoring.findQuote
    rw [hflat]
    exact rfl
  have h2 : Anchoring.findFuzzyQuote d nodes = none := by
    unfold Anchoring.findFuzzyQuote
    rw [hflat]
    dsimp only
    rw [fuzzyScan_nil hne]
  have h3 : Anchoring.findByPosition d nodes = none := by
    unfold Anchoring.findByPosition
    rw [hflat, if_pos (Or.inr (by simpa using hstop))]
  exact part2 d nodes h1 h2 h3

/-- Witness for C3 on a concrete descriptor and the empty document. -/
theorem c3_fails_closed_witness : Anchoring.anchorModel c3Anchor [] = none :=
  c3_anchor_fails_closed.1 c3Anchor [] (by decide) (by decide) rfl

/-- Any candidate kept by one step of the fuzzy scan scores strictly above
the threshold. -/
theorem fuzzyStep_score {d : Anchoring.TextAnchor} {full : List Char}
    {best : Option (Nat × ℚ × List Char)} {i : Nat}
    (hbest : ∀ x, best = some x → Anchoring.FUZZY_THRESHOLD < x.2.1) :
    ∀ x, Anchoring.fuzzyStep d full best i = some x →
      Anchoring.FUZZY_THRESHOLD < x.2.1 := by
  intro x hx
  unfold Anchoring.fuzzyStep at hx
  dsimp only at hx
  by_cases hc : Anchoring.similarity d.exact ((jsSlice full i (i + (d.exact.length + 50))).take d.exact.length) >
      Anchoring.FUZZY_THRESHOLD ∧ (best = none ∨ ∃ b ∈ best,
        Anchoring.similarity d.exact ((jsSlice full i (i + (d.exact.length + 50))).take d.exact.length) > b.2.1)
  · rw [if_pos hc] at hx
    by_cases hctx : (Anchoring.similarity d.pfx (jsSlice full (i - Anchoring.CONTEXT_LENGTH) i) +
        Anchoring.similarity d.sfx
          (jsSlice full (i + d.exact.length) (i + d.exact.length + Anchoring.CONTEXT_LENGTH))) / 2 > 7 / 10
    · rw [if_pos hctx] at hx
      injection hx with hx
      subst hx
      exact hc.1
    · rw [if_neg hctx] at hx
      exact hbest x hx
  · rw [if_neg hc] at hx
    exact hbest x hx

/-- Any candidate the whole fuzzy scan returns scores strictly above the
threshold. -/
theorem fuzzyScan_score {d : Anchoring.TextAnchor} {full : List Char} :
    ∀ x, Anchoring.fuzzyScan d full = some x → Anchoring.FUZZY_THRESHOLD < x.2.1 := by
  unfold Anchoring.fuzzyScan
  dsimp only
  generalize List.range _ = l
  suffices h : ∀ (l : List Nat) (best : Option (Nat × ℚ × List Char)),
      (∀ x, best = some x → Anchoring.FUZZY_THRESHOLD < x.2.1) →
      ∀ x, l.foldl (Anchoring.fuzzyStep d full) best = some x →
        Anchoring.FUZZY_THRESHOLD < x.2.1 by
    exact h l none (by intro x hx; cases hx)
  intro l
  induction l with
  | nil => intro best hbest x hx; exact hbest x hx
  | cons i rest ih =>
    intro best hbest x hx
    rw [List.foldl_cons] at hx
    exact ih _ (fuzzyStep_score hbest) x hx

/-- A fuzzy match returned by `findFuzzyQuote` scores strictly above the
threshold. -/
theorem findFuzzyQuote_score {d : Anchoring.TextAnchor} {nodes : List (List Char)}
    {f : Anchoring.AnchorResult} (hf : Anchoring.findFuzzyQuote d nodes = some f) :
    Anchoring.FUZZY_THRESHOLD < f.score := by
  unfold Anchoring.findFuzzyQuote at hf
  dsimp only at hf
  cases hS : Anchoring.fuzzyScan d nodes.flatten with
  | none => rw [hS] at hf; cases hf
  | some x =>
    rw [hS] at hf
    obtain ⟨i, sc, t⟩ := x
    dsimp only at hf
    cases hC : Anchoring.createRangeFromOffset (i : Int) ((i : Int) + (d.exact.length : Int)) nodes with
    | none => rw [hC] at hf; cases hf
    | some rg =>
      rw [hC] at hf
      injection hf with hf
      subst hf
      exact fuzzyScan_score _ hS

/-- C1 (amended): the fuzzy stage accepts a candidate window only when its
similarity is strictly greater than the `0.8` threshold — an anchored
result resolved by the `fuzzy` method always has score above `0.8`, so a
best window at exactly `0.8` falls through to the position strategy or
`null`. -/
theorem c1_fuzzy_strictly_above_threshold :
    ∀ (d : Anchoring.TextAnchor) (nodes : List (List Char)) (r : Anchoring.AnchorResult),
      Anchoring.anchorModel d nodes = some r → r.method = .fuzzy →
      Anchoring.FUZZY_THRESHOLD < r.score := by
  intro d nodes r hr hm
  unfold Anchoring.anchorModel at hr
  cases hq : Anchoring.findQuote d nodes with
  | some q =>
    rw [hq] at hr
    injection hr with hr
    subst hr
    simp at hm
  | none =>
    rw [hq] at hr
    dsimp only at hr
    cases hf : Anchoring.findFuzzyQuote d nodes with
    | some f =>
      rw [hf] at hr
      dsimp only at hr
      by_cases hth : f.score ≥ Anchoring.FUZZY_THRESHOLD
      · rw [if_pos hth] at hr
        injection hr with hr
        subst hr
        exact findFuzzyQuote_score hf
      · rw [if_neg hth] at hr
        cases hp : Anchoring.findByPosition d nodes with
        | some p =>
          rw [hp] at hr
          injection hr with hr
          subst hr
          simp at hm
        | none => rw [hp] at hr; cases hr
    | none =>
      rw [hf] at hr
      dsimp only at hr
      cases hp : Anchoring.findByPosition d nodes with
      | some p =>
        rw [hp] at hr
        injection hr with hr
        subst hr
        simp at hm
      | none => rw [hp] at hr; cases hr

set_option maxRecDepth 1000000 in
unseal Rat.inv Rat.mul Rat.add Rat.sub Nat.gcd in
/-- Counterexample for C1 as stated: for this descriptor and document the
best candidate window has similarity exactly `0.8` and perfect context
(score `1 > 0.7`), yet the fuzzy stage rejects it and the cascade falls
through to the position strategy. -/
theorem c1_exact_threshold_counterexample :
    Anchoring.similarity c1AnchorA.exact
        (jsSlice c1DocA.flatten 0 (0 + c1AnchorA.exact.length)) =
      Anchoring.FUZZY_THRESHOLD ∧
    (Anchoring.similarity c1AnchorA.pfx (jsSlice c1DocA.flatten 0 0) +
        Anchoring.similarity c1AnchorA.sfx (jsSlice c1DocA.flatten 5 37)) / 2 > 7 / 10 ∧
    Anchoring.findFuzzyQuote c1AnchorA c1DocA = none ∧
    Anchoring.anchorModel c1AnchorA c1DocA =
      some ⟨⟨0, 0, 0, 5⟩, "aaaab".data, 1 / 2, .position⟩ := by
  decide

set_option maxRecDepth 1000000 in
unseal Rat.inv Rat.mul Rat.add Rat.sub Nat.gcd in
/-- Witness for C1 (amended): a window of similarity `0.9` is accepted by
the fuzzy stage, and the theorem certifies its score exceeds `0.8`. -/
theorem c1_strict_threshold_witness :
    Anchoring.anchorModel c1AnchorB c1DocB = some c1ResB ∧
    Anchoring.FUZZY_THRESHOLD < c1ResB.score := by
  have h : Anchoring.anchorModel c1AnchorB c1DocB = some c1ResB := by decide
  exact ⟨h, c1_fuzzy_strictly_above_threshold c1AnchorB c1DocB c1ResB h rfl⟩

/-- C7: `offsetToRange` fails closed — it returns `null` whenever
`start < 0`, `end ≤ start`, the chunk has no node spans, or the text
re-derived from the node spans differs from the chunk's recorded text —
and an `end` beyond the chunk's total current length is clamped: the call
behaves exactly as with `end` equal to that total length. -/
theorem c7_offset_to_range_fails_closed (chunk : Content.TextChunk) (s e : Int) :
    ((s < 0 ∨ e ≤ s ∨ chunk.nodeRanges = [] ∨ Content.derivedText chunk ≠ chunk.text) →
      Content.offsetToRange chunk s e = none) ∧
    (Content.totalLen chunk < e →
      Content.offsetToRange chunk s e =
        Content.offsetToRange chunk s (Content.totalLen chunk)) := by
  have closed : ∀ e' : Int,
      (s < 0 ∨ e' ≤ s ∨ chunk.nodeRanges = [] ∨ Content.derivedText chunk ≠ chunk.text) →
      Content.offsetToRange chunk s e' = none := by
    intro e' hyp
    unfold Content.offsetToRange
    rcases hyp with h | h | h | h
    · rw [if_pos (Or.inl h)]
    · rw [if_pos (Or.inr (Or.inl h))]
    · rw [if_pos (Or.inr (Or.inr h))]
    · by_cases hg : s < 0 ∨ e' ≤ s ∨ chunk.nodeRanges = []
      · rw [if_pos hg]
      · rw [if_neg hg, if_pos h]
  refine ⟨closed e, ?_⟩
  intro hT
  by_cases h1 : s < 0
  · rw [closed e (Or.inl h1), closed _ (Or.inl h1)]
  by_cases h3 : chunk.nodeRanges = []
  · rw [closed e (Or.inr (Or.inr (Or.inl h3))), closed _ (Or.inr (Or.inr (Or.inl h3)))]
  by_cases h2 : e ≤ s
  · rw [closed e (Or.inr (Or.inl h2)),
      closed _ (Or.inr (Or.inl (le_trans (le_of_lt hT) h2)))]
  by_cases htext : Content.derivedText chunk ≠ chunk.text
  · rw [closed e (Or.inr (Or.inr (Or.inr htext))), closed _ (Or.inr (Or.inr (Or.inr htext)))]
  push_neg at htext
  by_cases hsT : s ≥ Content.totalLen chunk
  · unfold Content.offsetToRange
    rw [if_neg (by push_neg; exact ⟨not_lt.mp h1, not_le.mp h2, h3⟩), if_neg (by simpa using htext),
      if_pos hsT, if_pos (Or.inr (Or.inl hsT))]
  · unfold Content.offsetToRange
    rw [if_neg (by push_neg; exact ⟨not_lt.mp h1, not_le.mp h2, h3⟩), if_neg (by simpa using htext),
      if_neg hsT,
      if_neg (by push_neg; exact ⟨not_lt.mp h1, not_le.mp hsT, h3⟩), if_neg (by simpa using htext),
      if_neg hsT]
    have : min e (Content.totalLen chunk) = min (Content.totalLen chunk) (Content.totalLen chunk) := by
      rw [min_eq_right (le_of_lt hT), min_self]
    rw [this]

/-- Witness for C7: a negative start is rejected, and an `end` of `100` on
a five-character chunk behaves exactly like `end = 5` — and still produces
a range. -/
theorem c7_witness :
    Content.offsetToRange c7Chunk (-1) 3 = none ∧
    Content.offsetToRange c7Chunk 1 100 =
      Content.offsetToRange c7Chunk 1 (Content.totalLen c7Chunk) ∧
    Content.offsetToRange c7Chunk 1 100 = some ⟨0, 1, 0, 5⟩ :=
  ⟨(c7_offset_to_range_fails_closed c7Chunk (-1) 3).1 (Or.inl (by norm_num)),
   (c7_offset_to_range_fails_closed c7Chunk 1 100).2 (by decide),
   by decide⟩


/-- `finalizeChunk` moves the working sentences into the emitted chunks
without losing or duplicating any. -/
theorem finalizeChunk_stateSent (text : List Char) (st : Chunking.ChunkState) :
    Chunking.stateSent (Chunking.finalizeChunk text st) = Chunking.stateSent st := by
  unfold Chunking.finalizeChunk
  cases hL : st.current.getLast? with
  | none =>
    rw [List.getLast?_eq_none_iff] at hL
  | some last =>
    simp [Chunking.stateSent, Chunking.joinSent]

/-- Appending a sentence to the working chunk appends it to the accounted
sentences. -/
theorem stateSent_push (chunks : List Chunking.SemanticChunk)
    (current : List Chunking.SentenceBoundary) (cnt cs : Nat)
    (s : Chunking.SentenceBoundary) :
    Chunking.stateSent ⟨chunks, current ++ [s], cnt, cs⟩ =
      (Chunking.joinSent chunks ++ current) ++ [s] := by
  simp [Chunking.stateSent]

/-- One `addSentence` step appends exactly its sentence. -/
theorem addSentence_stateSent (text : List Char) (t m M : Nat) (b : Bool)
    (st : Chunking.ChunkState) (s : Chunking.SentenceBoundary) :
    Chunking.stateSent (Chunking.addSentence text t m M b st s) =
      Chunking.stateSent st ++ [s] := by
  have fold : ∀ st' : Chunking.ChunkState,
      Chunking.joinSent st'.chunks ++ st'.current = Chunking.stateSent st' := fun _ => rfl
  unfold Chunking.addSentence
  dsimp only
  split_ifs <;>
    simp only [finalizeChunk_stateSent, stateSent_push, fold]

/-- Folding `addSentence` over a sentence list appends the whole list. -/
theorem addSentences_stateSent (text : List Char) (t m M : Nat) :
    ∀ (ss : List Chunking.SentenceBoundary) (st : Chunking.ChunkState),
      Chunking.stateSent (Chunking.addSentences text t m M st ss) =
        Chunking.stateSent st ++ ss := by
  intro ss
  induction ss with
  | nil => intro st; simp [Chunking.addSentences]
  | cons s rest ih =>
    intro st
    cases rest with
    | nil =>
      rw [show Chunking.addSentences text t m M st [s] =
          Chunking.addSentence text t m M true st s from rfl]
      rw [addSentence_stateSent]
    | cons s2 rest2 =>
      rw [show Chunking.addSentences text t m M st (s :: s2 :: rest2) =
          Chunking.addSentences text t m M
            (Chunking.addSentence text t m M false st s) (s2 :: rest2) from rfl]
      rw [ih, addSentence_stateSent]
      simp

/-- One `addParagraph` step appends the paragraph's sentences. -/
theorem addParagraph_stateSent (text : List Char) (t m M : Nat)
    (st : Chunking.ChunkState) (p : Chunking.Paragraph) :
    Chunking.stateSent (Chunking.addParagraph text t m M st p) =
      Chunking.stateSent st ++ p.sentences := by
  unfold Chunking.addParagraph
  dsimp only
  split_ifs with h
  · rw [finalizeChunk_stateSent, addSentences_stateSent]
  · rw [addSentences_stateSent]

/-- Folding `addParagraph` appends all the paragraphs' sentences. -/
theorem foldl_addParagraph_stateSent (text : List Char) (t m M : Nat) :
    ∀ (ps : List Chunking.Paragraph) (st : Chunking.ChunkState),
      Chunking.stateSent (ps.foldl (Chunking.addParagraph text t m M) st) =
        Chunking.stateSent st ++ Chunking.paraSent ps := by
  intro ps
  induction ps with
  | nil => intro st; simp [Chunking.paraSent]
  | cons p rest ih =>
    intro st
    rw [List.foldl_cons, ih, addParagraph_stateSent]
    simp [Chunking.paraSent]

/-- The paragraph builder partitions exactly the sentences it is given. -/
theorem dpGo_paraSent (text : List Char) :
    ∀ (ss : List Chunking.SentenceBoundary) (paraStart : Nat)
      (current : List Chunking.SentenceBoundary) (ps : List Chunking.Paragraph),
      Chunking.paraSent (Chunking.dpGo text ss paraStart current ps) =
        Chunking.paraSent ps ++ (if ss = [] then [] else current ++ ss) := by
  intro ss
  induction ss with
  | nil => intro paraStart current ps; simp [Chunking.dpGo]
  | cons s rest ih =>
    intro paraStart current ps
    cases rest with
    | nil =>
      have hstep : Chunking.dpGo text [s] paraStart current ps =
          ps ++ [⟨paraStart, s.stop, current ++ [s]⟩] := rfl
      rw [hstep]
      simp [Chunking.paraSent]
    | cons nxt rest2 =>
      have hstep : Chunking.dpGo text (s :: nxt :: rest2) paraStart current ps =
          if Chunking.isParagraphBoundary text s.stop nxt.start then
            Chunking.dpGo text (nxt :: rest2) nxt.start []
              (ps ++ [⟨paraStart, s.stop, current ++ [s]⟩])
          else Chunking.dpGo text (nxt :: rest2) paraStart (current ++ [s]) ps := rfl
      rw [hstep]
      by_cases hb : Chunking.isParagraphBoundary text s.stop nxt.start = true
      · rw [if_pos hb, ih]
        simp [Chunking.paraSent]
      · rw [if_neg hb, ih]
        simp

/-- `detectParagraphs` partitions `detectSentences`. -/
theorem detectParagraphs_paraSent (text : List Char) :
    Chunking.paraSent (Chunking.detectParagraphs text) =
      Chunking.detectSentences text := by
  unfold Chunking.detectParagraphs
  cases hs : Chunking.detectSentences text with
  | nil => rfl
  | cons s rest =>
    rw [dpGo_paraSent]
    simp [Chunking.paraSent]

/-- A non-empty working chunk is emptied by `finalizeChunk`. -/
theorem finalizeChunk_current (text : List Char) (st : Chunking.ChunkState)
    (h : st.current ≠ []) : (Chunking.finalizeChunk text st).current = [] := by
  unfold Chunking.finalizeChunk
  cases hL : st.current.getLast? with
  | none => rw [List.getLast?_eq_none_iff] at hL; exact absurd hL h
  | some last => rfl

/-- C5: chunking conserves content — the chunks' sentence lists
concatenate to exactly `detectSentences text`, in order, with nothing
dropped or duplicated, so the total sentence count matches. -/
theorem c5_chunking_conserves_sentences (text : List Char) (t m M : Nat) :
    ((Chunking.createSemanticChunks text t m M).map
        Chunking.SemanticChunk.sentences).flatten = Chunking.detectSentences text ∧
    ((Chunking.createSemanticChunks text t m M).map
        (fun c => c.sentences.length)).sum = (Chunking.detectSentences text).length := by
  have main : ((Chunking.createSemanticChunks text t m M).map
      Chunking.SemanticChunk.sentences).flatten = Chunking.detectSentences text := by
    unfold Chunking.createSemanticChunks
    cases hp : Chunking.detectParagraphs text with
    | nil =>
      have := detectParagraphs_paraSent text
      rw [hp] at this
      simp only [Chunking.paraSent, List.map_nil, List.flatten_nil] at this
      simp [← this]
    | cons p ps =>
      dsimp only
      have hfold := foldl_addParagraph_stateSent text t m M (p :: ps) ⟨[], [], 0, p.start⟩
      have hsent : Chunking.stateSent
          ((p :: ps).foldl (Chunking.addParagraph text t m M) ⟨[], [], 0, p.start⟩) =
          Chunking.detectSentences text := by
        rw [hfold]
        have := detectParagraphs_paraSent text
        rw [hp] at this
        rw [← this]
        simp [Chunking.stateSent, Chunking.joinSent]
      set stF := (p :: ps).foldl (Chunking.addParagraph text t m M) ⟨[], [], 0, p.start⟩ with hstF
      by_cases hcur : stF.current ≠ []
      · rw [if_pos hcur]
        have h1 := finalizeChunk_stateSent text stF
        have h2 := finalizeChunk_current text stF hcur
        rw [hsent] at h1
        rw [Chunking.stateSent, h2, List.append_nil] at h1
        exact h1
      · rw [if_neg hcur]
        push_neg at hcur
        rw [Chunking.stateSent, hcur, List.append_nil] at hsent
        exact hsent
  refine ⟨main, ?_⟩
  have := congrArg List.length main
  rw [List.length_flatten, List.map_map] at this
  simpa [Function.comp] using this


/-- `finalizeChunk` on an empty working chunk is the identity. -/
theorem finalizeChunk_of_nil (text : List Char) (st : Chunking.ChunkState)
    (h : st.current = []) : Chunking.finalizeChunk text st = st := by
  unfold Chunking.finalizeChunk
  rw [show st.current.getLast? = none from by rw [h]; rfl]

/-- Shape of `finalizeChunk` on a non-empty working chunk: the emitted
chunk records the running word count and the working sentences, and the
accumulator is reset. -/
theorem finalizeChunk_eq (text : List Char) (st : Chunking.ChunkState)
    (s0 : Chunking.SentenceBoundary) (ss0 : List Chunking.SentenceBoundary)
    (h : st.current = s0 :: ss0) :
    ∃ C : Chunking.SemanticChunk, C.wordCount = st.count ∧ C.sentences = st.current ∧
      ∃ k, Chunking.finalizeChunk text st = ⟨st.chunks ++ [C], [], 0, k⟩ := by
  unfold Chunking.finalizeChunk
  cases hL : st.current.getLast? with
  | none =>
    rw [List.getLast?_eq_none_iff, h] at hL
    cases hL
  | some last => exact ⟨_, rfl, rfl, _, rfl⟩

/-- `finalizeChunk` preserves the per-chunk bound and the adjacency
relation of the emitted chunk list. -/
theorem finalizeChunk_inv_core (text : List Char) {m M : Nat}
    {st : Chunking.ChunkState} (inv : Chunking.ChunkInv m M st) :
    (∀ c ∈ (Chunking.finalizeChunk text st).chunks,
      c.wordCount ≤ M ∨ c.sentences.length = 1) ∧
    List.Chain' (Chunking.pairOk m M) (Chunking.finalizeChunk text st).chunks := by
  cases hcur : st.current with
  | nil =>
    rw [finalizeChunk_of_nil text st hcur]
    exact ⟨inv.chunksOk, inv.chainOk⟩
  | cons s0 ss0 =>
    obtain ⟨C, hCw, hCs, k, hfin⟩ := finalizeChunk_eq text st s0 ss0 hcur
    rw [hfin]
    constructor
    · intro c hc
      rcases List.mem_append.mp hc with h | h
      · exact inv.chunksOk c h
      · rw [List.mem_singleton] at h
        subst h
        by_cases hM : c.wordCount ≤ M
        · exact Or.inl hM
        · right
          have hbig := inv.bigSingle (by omega)
          rw [hcur] at hbig
          rw [hCs, hcur]
          simp only [List.length_cons] at hbig ⊢
          omega
    · rw [List.chain'_append]
      refine ⟨inv.chainOk, List.chain'_singleton _, ?_⟩
      intro x hx y hy
      simp only [List.head?_cons, Option.mem_def, Option.some.injEq] at hy
      subst hy
      have hpend := inv.pendingOk x hx s0 ss0 hcur
      unfold Chunking.pairOk
      rw [show Chunking.headWords C = splitWsLen s0.text from by
        unfold Chunking.headWords; rw [hCs, hcur]]
      exact hpend

/-- `finalizeChunk` preserves the full invariant when the working chunk
has reached the minimum (or is empty). -/
theorem finalizeChunk_inv_min (text : List Char) {m M : Nat}
    {st : Chunking.ChunkState} (inv : Chunking.ChunkInv m M st)
    (hmin : st.current ≠ [] → m ≤ st.count) :
    Chunking.ChunkInv m M (Chunking.finalizeChunk text st) := by
  cases hcur : st.current with
  | nil => rw [finalizeChunk_of_nil text st hcur]; exact inv
  | cons s0 ss0 =>
    have core := finalizeChunk_inv_core text inv
    obtain ⟨C, hCw, hCs, k, hfin⟩ := finalizeChunk_eq text st s0 ss0 hcur
    rw [hfin] at core
    rw [hfin]
    refine ⟨fun _ => rfl, fun h => absurd h (by simp), core.1, core.2, ?_, ?_⟩
    · intro c hc s ss hss
      cases hss
    · intro _ c hc
      rw [show (⟨st.chunks ++ [C], [], 0, k⟩ : Chunking.ChunkState).chunks =
        st.chunks ++ [C] from rfl, List.getLast?_concat] at hc
      injection hc with hc
      subst hc
      rw [hCw]
      exact hmin (by rw [hcur]; exact List.cons_ne_nil s0 ss0)

/-- Appending one sentence to the working chunk preserves the invariant,
given the facts holding at both call sites of the chunking loop. -/
theorem push_inv {m M : Nat} (st1 : Chunking.ChunkState)
    (s : Chunking.SentenceBoundary) (w : Nat) (hw : w = splitWsLen s.text)
    (hOk : ∀ c ∈ st1.chunks, c.wordCount ≤ M ∨ c.sentences.length = 1)
    (hChain : List.Chain' (Chunking.pairOk m M) st1.chunks)
    (hPendNew : st1.current = [] → ∀ c, st1.chunks.getLast? = some c →
      m ≤ c.wordCount ∨ M < c.wordCount + w)
    (hPendOld : ∀ c, st1.chunks.getLast? = some c →
      ∀ s0 ss0, st1.current = s0 :: ss0 →
      m ≤ c.wordCount ∨ M < c.wordCount + splitWsLen s0.text)
    (hNotBig : st1.current ≠ [] → st1.count + w ≤ M) :
    Chunking.ChunkInv m M ⟨st1.chunks, st1.current ++ [s], st1.count + w, st1.chunkStart⟩ := by
  refine ⟨?_, ?_, hOk, hChain, ?_, ?_⟩
  · intro h
    exact absurd h (by simp)
  · intro hbig
    dsimp only at hbig
    cases hcur : st1.current with
    | nil => simp [hcur]
    | cons c0 cs =>
      have := hNotBig (by rw [hcur]; exact List.cons_ne_nil c0 cs)
      omega
  · intro c hc s0 ss0 hss
    simp only at hc hss
    cases hcur : st1.current with
    | nil =>
      rw [hcur, List.nil_append] at hss
      injection hss with h1 h2
      subst h1
      rw [← hw]
      exact hPendNew hcur c hc
    | cons c0 cs =>
      rw [hcur, List.cons_append] at hss
      injection hss with h1 h2
      subst h1
      exact hPendOld c hc c0 cs hcur
  · intro h
    exact absurd h (by simp)

/-- One `addSentence` step preserves the invariant. -/
theorem addSentence_inv (text : List Char) {t m M : Nat} (b : Bool)
    {st : Chunking.ChunkState} (inv : Chunking.ChunkInv m M st)
    (s : Chunking.SentenceBoundary) :
    Chunking.ChunkInv m M (Chunking.addSentence text t m M b st s) := by
  unfold Chunking.addSentence
  dsimp only
  by_cases hA : st.count + splitWsLen s.text > M ∧ st.current ≠ []
  · rw [if_pos hA]
    obtain ⟨s0, ss0, hcur⟩ : ∃ a l, st.current = a :: l := by
      cases hc : st.current with
      | nil => exact absurd hc hA.2
      | cons a l => exact ⟨a, l, rfl⟩
    have core := finalizeChunk_inv_core text inv
    obtain ⟨C, hCw, hCs, k, hfin⟩ := finalizeChunk_eq text st s0 ss0 hcur
    have inv2 : Chunking.ChunkInv m M
        ⟨(Chunking.finalizeChunk text st).chunks,
          (Chunking.finalizeChunk text st).current ++ [s],
          (Chunking.finalizeChunk text st).count + splitWsLen s.text,
          (Chunking.finalizeChunk text st).chunkStart⟩ := by
      refine push_inv _ s _ rfl core.1 core.2 ?_ ?_ ?_
      · intro _ c hc
        rw [hfin] at hc
        rw [show (⟨st.chunks ++ [C], [], 0, k⟩ : Chunking.ChunkState).chunks =
          st.chunks ++ [C] from rfl, List.getLast?_concat] at hc
        injection hc with hc
        subst hc
        rw [hCw]
        exact Or.inr hA.1
      · intro c hc s1 ss1 hss
        rw [hfin] at hss
        cases hss
      · intro hne
        rw [hfin] at hne
        exact absurd rfl hne
    split_ifs with hT
    · exact finalizeChunk_inv_min text inv2 (fun _ => hT.2.1)
    · exact inv2
  · rw [if_neg hA]
    have inv2 : Chunking.ChunkInv m M
        ⟨st.chunks, st.current ++ [s], st.count + splitWsLen s.text, st.chunkStart⟩ := by
      refine push_inv st s _ rfl inv.chunksOk inv.chainOk ?_ inv.pendingOk ?_
      · intro hcur c hc
        exact Or.inl (inv.lastMin hcur c hc)
      · intro hne
        rcases not_and_or.mp hA with h | h
        · omega
        · exact absurd (not_not.mp h) hne
    split_ifs with hT
    · exact finalizeChunk_inv_min text inv2 (fun _ => hT.2.1)
    · exact inv2

/-- Folding `addSentence` over a sentence list preserves the invariant. -/
theorem addSentences_inv (text : List Char) {t m M : Nat} :
    ∀ (ss : List Chunking.SentenceBoundary) {st : Chunking.ChunkState},
      Chunking.ChunkInv m M st →
      Chunking.ChunkInv m M (Chunking.addSentences text t m M st ss) := by
  intro ss
  induction ss with
  | nil => intro st inv; exact inv
  | cons s rest ih =>
    intro st inv
    cases rest with
    | nil => exact addSentence_inv text true inv s
    | cons s2 rest2 =>
      exact ih (addSentence_inv text false inv s)

/-- One `addParagraph` step preserves the invariant. -/
theorem addParagraph_inv (text : List Char) {t m M : Nat}
    {st : Chunking.ChunkState} (inv : Chunking.ChunkInv m M st)
    (p : Chunking.Paragraph) :
    Chunking.ChunkInv m M (Chunking.addParagraph text t m M st p) := by
  unfold Chunking.addParagraph
  dsimp only
  split_ifs with h
  · exact finalizeChunk_inv_min text (addSentences_inv text p.sentences inv) (fun _ => h.1)
  · exact addSentences_inv text p.sentences inv

/-- The paragraph fold preserves the invariant. -/
theorem foldl_addParagraph_inv (text : List Char) {t m M : Nat} :
    ∀ (ps : List Chunking.Paragraph) {st : Chunking.ChunkState},
      Chunking.ChunkInv m M st →
      Chunking.ChunkInv m M (ps.foldl (Chunking.addParagraph text t m M) st) := by
  intro ps
  induction ps with
  | nil => intro st inv; exact inv
  | cons p rest ih => intro st inv; exact ih (addParagraph_inv text inv p)

/-- C4 (amended): every chunk either respects the max word count or is a
single unsplittable sentence exceeding it; and consecutive chunks satisfy
`pairOk` — a chunk not reaching the min word count was closed only because
its successor's first sentence would have pushed it above max. -/
theorem c4_minmax_amended (text : List Char) (t m M : Nat) :
    (∀ c ∈ Chunking.createSemanticChunks text t m M,
      c.wordCount ≤ M ∨ c.sentences.length = 1) ∧
    List.Chain' (Chunking.pairOk m M) (Chunking.createSemanticChunks text t m M) := by
  unfold Chunking.createSemanticChunks
  cases hp : Chunking.detectParagraphs text with
  | nil => exact ⟨fun c hc => absurd hc (List.not_mem_nil c), List.chain'_nil⟩
  | cons p ps =>
    dsimp only
    have inv0 : Chunking.ChunkInv m M ⟨[], [], 0, p.start⟩ := by
      refine ⟨fun _ => rfl, fun h => absurd h (by simp), ?_, List.chain'_nil, ?_, ?_⟩
      · intro c hc; exact absurd hc (List.not_mem_nil c)
      · intro c hc; cases hc
      · intro _ c hc; cases hc
    have invF := foldl_addParagraph_inv text (t := t) (p :: ps) inv0
    split_ifs with hcur
    · exact finalizeChunk_inv_core text invF
    · exact ⟨invF.chunksOk, invF.chainOk⟩

/-- Counterexample for C4 as stated: with `max = 4` a single eight-word...
sentence yields a chunk of word count `7 > 4`; with `min = 3, max = 5` the
max rule finalizes a first, non-final chunk of word count `2 < 3`. -/
theorem c4_minmax_counterexample :
    ((Chunking.createSemanticChunks "a b c d e f g. h.".data 10 3 4).map
        Chunking.SemanticChunk.wordCount = [7, 1] ∧ ¬(7 ≤ 4)) ∧
    ((Chunking.createSemanticChunks "a b. c d e f.".data 10 3 5).map
        Chunking.SemanticChunk.wordCount = [2, 4] ∧ 2 < 3) := by
  decide

/-- Witness for C4 (amended) at a concrete input: the 2-word first chunk
satisfies the disjunction (it is a single sentence), and the chunk list
satisfies the adjacency relation. -/
theorem c4_minmax_witness :
    (c4Chunk1.wordCount ≤ 5 ∨ c4Chunk1.sentences.length = 1) ∧
    List.Chain' (Chunking.pairOk 3 5)
      (Chunking.createSemanticChunks "a b. c d e f.".data 10 3 5) :=
  ⟨(c4_minmax_amended "a b. c d e f.".data 10 3 5).1 c4Chunk1 (by decide),
   (c4_minmax_amended "a b. c d e f.".data 10 3 5).2⟩

end Claims

end SocraticReader
